import Mathlib

/-!
Verification development for the helicopter-rig tuning script (`tuning.py`).

The script's two core functions are embedded shallowly:

* `Tuning.process_sessions` — the session-log parser.  The Python code reads
  the file text, runs `re.findall` with the pattern
  `^start(.+?)end.+?\x5b(.+?)\x5d$` (MULTILINE | DOTALL), asserts that at
  least `n_last` blocks were found, and processes the trailing `n_last`
  blocks.  File reading is I/O and is modelled by passing the text directly
  as a `List Char`.  Python floats are idealised as exact rationals.

* `Tuning.find_osc_period` — the oscillation estimator:
  `scipy.signal.detrend(·, type='constant')` (mean subtraction),
  `numpy.fft.rfft` magnitudes, `numpy.fft.rfftfreq`, `numpy.argmax`
  (first occurrence of the maximum), returning the frequency of the
  selected bin.

Python exceptions are modelled with `Except PyError`.
-/

set_option maxHeartbeats 1000000
set_option maxRecDepth 4000

namespace Tuning

/-- Python exception classes the script can raise while processing a log. -/
inductive PyError
  | assertionError
  | valueError
  | zeroDivisionError
  deriving DecidableEq, Repr

instance {α : Type} [DecidableEq α] : DecidableEq (Except PyError α) := fun x y =>
  match x, y with
  | .ok a, .ok b =>
      if h : a = b then isTrue (by rw [h])
      else isFalse (by intro hh; injection hh; exact h (by assumption))
  | .error e, .error f =>
      if h : e = f then isTrue (by rw [h])
      else isFalse (by intro hh; injection hh; exact h (by assumption))
  | .ok _, .error _ => isFalse (by intro h; cases h)
  | .error _, .ok _ => isFalse (by intro h; cases h)

/-- Characters stripped by Python `str.strip()` and by `int()` / `float()`
on their arguments (the ASCII whitespace set). -/
def pyWs (c : Char) : Bool :=
  c == ' ' || c == '\t' || c == '\n' || c == '\r' || c == '\x0b' || c == '\x0c'

/-- Python `str.strip()`: remove leading and trailing whitespace. -/
def strip (l : List Char) : List Char :=
  (l.dropWhile pyWs).rdropWhile pyWs

/-- Python `str.split('\n')`: split on every newline; a string with no
newline yields one piece, and `""` yields `[""]`. -/
def splitLines (l : List Char) : List (List Char) :=
  match l with
  | [] => [[]]
  | c :: rest =>
    let r := splitLines rest
    if c = '\n' then [] :: r
    else
      match r with
      | [] => [[c]]
      | h :: t => (c :: h) :: t

/-- Python `s.split(',')[0]`: the part of the string before the first comma
(the whole string when there is no comma). -/
def takeBeforeComma (l : List Char) : List Char :=
  l.takeWhile (fun c => c != ',')

/-- Value of a digit string, most significant digit first. -/
def digitsVal (l : List Char) : ℕ :=
  l.foldl (fun a c => 10 * a + (c.toNat - 48)) 0

/-- Python `int(s)` for base 10: strip whitespace, optional sign, then a
nonempty run of digits (numeric-literal underscores and non-ASCII digits
are outside the model). -/
def pyInt (l : List Char) : Option ℤ :=
  match strip l with
  | '+' :: r => if r ≠ [] ∧ r.all Char.isDigit then some (digitsVal r : ℤ) else none
  | '-' :: r => if r ≠ [] ∧ r.all Char.isDigit then some (-(digitsVal r : ℤ)) else none
  | r => if r ≠ [] ∧ r.all Char.isDigit then some (digitsVal r : ℤ) else none

/-- Exponent suffix of a Python float literal: empty, or `e`/`E`, optional
sign, then digits. `m` is the mantissa value parsed so far. -/
def parseExpPart (l : List Char) (m : ℚ) : Option ℚ :=
  match l with
  | [] => some m
  | c :: r =>
    if c = 'e' ∨ c = 'E' then
      match r with
      | '+' :: d =>
          if d ≠ [] ∧ d.all Char.isDigit then some (m * 10 ^ digitsVal d) else none
      | '-' :: d =>
          if d ≠ [] ∧ d.all Char.isDigit then some (m / 10 ^ digitsVal d) else none
      | d =>
          if d ≠ [] ∧ d.all Char.isDigit then some (m * 10 ^ digitsVal d) else none
    else none

/-- Unsigned part of a Python float literal: digits, optionally a point and
more digits, optionally an exponent.  At least one mantissa digit must be
present. -/
def parseUnsignedFloat (l : List Char) : Option ℚ :=
  let ip := l.takeWhile Char.isDigit
  let r1 := l.dropWhile Char.isDigit
  match r1 with
  | '.' :: r2 =>
    let fp := r2.takeWhile Char.isDigit
    let r3 := r2.dropWhile Char.isDigit
    if ip = [] ∧ fp = [] then none
    else parseExpPart r3 ((digitsVal ip : ℚ) + (digitsVal fp : ℚ) / 10 ^ fp.length)
  | _ => if ip = [] then none else parseExpPart r1 ((digitsVal ip : ℚ))

/-- Python `float(s)` on finite decimal literals: strip whitespace, optional
sign, then an unsigned float literal (`inf` / `nan` / underscores are
outside the model; Python floats are idealised as exact rationals). -/
def pyFloat (l : List Char) : Option ℚ :=
  match strip l with
  | '+' :: r => parseUnsignedFloat r
  | '-' :: r => (parseUnsignedFloat r).map Neg.neg
  | r => parseUnsignedFloat r

/-- The gain computation `gain = float(gain) / 1000.0`; a failed conversion
is Python's `ValueError`. -/
def gainParse (g : List Char) : Except PyError ℚ :=
  match pyFloat g with
  | some v => .ok (v / 1000)
  | none => .error .valueError

/-! ### Block discovery

Model of `re.findall('^start(.+?)end.+?\x5b(.+?)\x5d$', text, MULTILINE | DOTALL)`.
The scanner tries each position left to right; an attempt needs `start` at a
line start, then the backtracking engine takes the shortest nonempty body up
to an `end`, the shortest nonempty run up to a `\x5b`, and the shortest
nonempty gain up to a `\x5d` that sits at a line end, extending each in turn
on failure.  `findSome?` over `List.range` reproduces exactly this
innermost-first lazy search.  Scanning resumes at the end of each match. -/

def startTok : List Char := ['s', 't', 'a', 'r', 't']

def endTok : List Char := ['e', 'n', 'd']

/-- `$` with `re.MULTILINE`: end of string or just before a newline. -/
def lineEnd : List Char → Bool
  | [] => true
  | c :: _ => c == '\n'

/-- After the opening bracket: lazily find the shortest nonempty gain
followed by a closing bracket at a line end.  Returns the gain capture and
the text after the closing bracket. -/
def stageC (cs : List Char) : Option (List Char × List Char) :=
  (List.range cs.length).findSome? fun k =>
    match cs.drop (k + 1) with
    | ']' :: tail => if lineEnd tail then some (cs.take (k + 1), tail) else none
    | _ => none

/-- After `end`: lazily find the shortest nonempty run followed by an
opening bracket, then run `stageC`; on its failure extend the run. -/
def stageB (cs : List Char) : Option (List Char × List Char) :=
  (List.range cs.length).findSome? fun j =>
    match cs.drop (j + 1) with
    | '[' :: rest => stageC rest
    | _ => none

/-- After `start`: lazily find the shortest nonempty body followed by
`end`, then run `stageB`; on its failure extend the body.  Returns the body
capture, the gain capture, and the text after the match. -/
def stageA (cs : List Char) : Option (List Char × List Char × List Char) :=
  (List.range cs.length).findSome? fun i =>
    if (cs.drop (i + 1)).take 3 = endTok then
      (stageB ((cs.drop (i + 1)).drop 3)).map fun gr => (cs.take (i + 1), gr.1, gr.2)
    else none

theorem stageC_length {cs g r} (h : stageC cs = some (g, r)) : r.length < cs.length := by
  obtain ⟨k, -, hk⟩ := List.exists_of_findSome?_eq_some h
  revert hk
  split
  · next tail heq =>
    intro hk
    split at hk
    · cases hk
      have : (cs.drop (k + 1)).length = cs.length - (k + 1) := List.length_drop _ _
      rw [heq] at this
      simp only [List.length_cons] at this
      omega
    · cases hk
  · intro hk; cases hk

theorem stageB_length {cs g r} (h : stageB cs = some (g, r)) : r.length < cs.length := by
  obtain ⟨j, -, hj⟩ := List.exists_of_findSome?_eq_some h
  revert hj
  split
  · next rest heq =>
    intro hj
    have h1 : r.length < rest.length := stageC_length hj
    have h2 : (cs.drop (j + 1)).length = cs.length - (j + 1) := List.length_drop _ _
    rw [heq] at h2
    simp only [List.length_cons] at h2
    omega
  · intro hj; cases hj

theorem stageA_length {cs b g r} (h : stageA cs = some (b, g, r)) : r.length < cs.length := by
  obtain ⟨i, -, hi⟩ := List.exists_of_findSome?_eq_some h
  split at hi
  · rw [Option.map_eq_some'] at hi
    obtain ⟨⟨g', r'⟩, hgr, heq⟩ := hi
    simp only [Prod.mk.injEq] at heq
    obtain ⟨-, -, hr⟩ := heq
    have h1 : r'.length < ((cs.drop (i + 1)).drop 3).length := stageB_length hgr
    rw [← hr]
    have h2 : ((cs.drop (i + 1)).drop 3).length ≤ cs.length := by
      simp only [List.length_drop]; omega
    omega
  · cases hi

/-- The `re.findall` scan: at each position, attempt a match when the
position is a line start (`atLS`) and the text begins with `start`; on
success record the two captures and resume after the match, otherwise
advance one character.  The scan is written with a fuel parameter to keep
the recursion structural: every step strictly shrinks the text (a match
consumes at least its own characters, `stageA_length`), so starting the
fuel at the text length the zero-fuel case is never reached. -/
def findBlocksAux : ℕ → List Char → Bool → List (List Char × List Char)
  | 0, _, _ => []
  | _ + 1, [], _ => []
  | fuel + 1, c :: cs, atLS =>
    if atLS = true ∧ (c :: cs).take 5 = startTok then
      match stageA ((c :: cs).drop 5) with
      | some (b, g, r) => (b, g) :: findBlocksAux fuel r false
      | none => findBlocksAux fuel cs (c == '\n')
    else findBlocksAux fuel cs (c == '\n')

/-- `sessions = re.findall(match_exp, text)`: the list of
(body capture, gain capture) pairs, in textual order. -/
def findBlocks (text : List Char) : List (List Char × List Char) :=
  findBlocksAux text.length text true

/-! ### Structure of discovered blocks -/

/-- `reconstructs cs bs` says the match list `bs` tiles `cs`: each match is
a contiguous segment `start <body> end <mid> \x5b <gain> \x5d`, the
matches appear in textual order, and they do not overlap or nest. -/
def reconstructs : List Char → List (List Char × List Char) → Prop
  | _, [] => True
  | cs, (b, g) :: rest =>
    ∃ pre mid tail,
      cs = pre ++ startTok ++ b ++ endTok ++ mid ++ '[' :: (g ++ ']' :: tail) ∧
      b ≠ [] ∧ mid ≠ [] ∧ g ≠ [] ∧ reconstructs tail rest

theorem stageC_spec {cs g r} (h : stageC cs = some (g, r)) :
    g ≠ [] ∧ cs = g ++ ']' :: r := by
  obtain ⟨k, -, hk⟩ := List.exists_of_findSome?_eq_some h
  revert hk
  split
  · next tail heq =>
    intro hk
    split at hk
    · cases hk
      have hlen : k + 1 < cs.length := by
        have h2 := congrArg List.length heq
        simp only [List.length_drop, List.length_cons] at h2
        omega
      refine ⟨?_, ?_⟩
      · have h3 : (cs.take (k + 1)).length = k + 1 := by
          simp only [List.length_take]
          omega
        intro hnil
        rw [hnil] at h3
        simp at h3
      · conv_lhs => rw [← List.take_append_drop (k + 1) cs]
        rw [heq]
    · cases hk
  · intro hk; cases hk

theorem stageB_spec {cs g r} (h : stageB cs = some (g, r)) :
    g ≠ [] ∧ ∃ mid, mid ≠ [] ∧ cs = mid ++ '[' :: (g ++ ']' :: r) := by
  obtain ⟨j, -, hj⟩ := List.exists_of_findSome?_eq_some h
  revert hj
  split
  · next rest heq =>
    intro hj
    obtain ⟨hg, hrest⟩ := stageC_spec hj
    have hlen : j + 1 < cs.length := by
      have h2 := congrArg List.length heq
      simp only [List.length_drop, List.length_cons] at h2
      omega
    refine ⟨hg, cs.take (j + 1), ?_, ?_⟩
    · have h3 : (cs.take (j + 1)).length = j + 1 := by
        simp only [List.length_take]
        omega
      intro hnil
      rw [hnil] at h3
      simp at h3
    · conv_lhs => rw [← List.take_append_drop (j + 1) cs]
      rw [heq, hrest]
  · intro hj; cases hj

theorem stageA_spec {cs b g r} (h : stageA cs = some (b, g, r)) :
    ∃ mid, b ≠ [] ∧ mid ≠ [] ∧ g ≠ [] ∧
      cs = b ++ endTok ++ mid ++ '[' :: (g ++ ']' :: r) := by
  obtain ⟨i, -, hi⟩ := List.exists_of_findSome?_eq_some h
  split at hi
  · next hend =>
    rw [Option.map_eq_some'] at hi
    obtain ⟨⟨g', r'⟩, hgr, heq⟩ := hi
    simp only [Prod.mk.injEq] at heq
    obtain ⟨hb, hg2, hr2⟩ := heq
    obtain ⟨hgne, mid, hmid, hdecomp⟩ := stageB_spec hgr
    have hlen : i + 4 ≤ cs.length := by
      have h2 := congrArg List.length hend
      simp only [List.length_take, List.length_drop] at h2
      have h3 : endTok.length = 3 := rfl
      rw [h3] at h2
      omega
    refine ⟨mid, ?_, hmid, ?_, ?_⟩
    · have h3 : (cs.take (i + 1)).length = i + 1 := by
        simp only [List.length_take]
        omega
      intro hnil
      rw [hb, hnil] at h3
      simp at h3
    · rw [← hg2]
      exact hgne
    · conv_lhs => rw [← List.take_append_drop (i + 1) cs]
      conv_lhs => rw [← List.take_append_drop 3 (cs.drop (i + 1))]
      rw [hb, hend, hdecomp, hg2, hr2]
      simp [List.append_assoc]
  · cases hi

/-! ### Oscillation estimator -/

/-- `numpy.mean` of a list, with float arithmetic idealised as exact
rational arithmetic. -/
def mean (l : List ℚ) : ℚ := l.sum / l.length

/-- `scipy.signal.detrend(l, type='constant')`: subtract the mean from
every sample. -/
def detrend (l : List ℚ) : List ℚ := l.map (fun x => x - mean l)

/-- Output length of `numpy.fft.rfft` / `numpy.fft.rfftfreq` on `n` input
points: the non-negative-frequency half has `n / 2 + 1` bins. -/
def numBins (n : ℕ) : ℕ := n / 2 + 1

/-- Coefficient `k` of the discrete Fourier transform of `l`, the value
`numpy.fft.rfft(l)[k]` (float arithmetic idealised as exact complex
arithmetic). -/
noncomputable def dftCoeff (l : List ℚ) (k : ℕ) : ℂ :=
  ∑ j ∈ Finset.range l.length,
    (l.getD j 0 : ℂ) * Complex.exp (-(2 * Real.pi * Complex.I * j * k) / l.length)

/-- `abs(numpy.fft.rfft(l))`: the magnitude spectrum over the
non-negative-frequency half, bins `0 .. n/2`. -/
noncomputable def rfftMags (l : List ℚ) : List ℝ :=
  (List.range (numBins l.length)).map fun k => Complex.abs (dftCoeff l k)

/-- `numpy.fft.rfftfreq(n, d)` bin `k`, equal to `k / (n * d)`. -/
def rfftfreq (n : ℕ) (d : ℚ) (k : ℕ) : ℚ := k / (n * d)

/-- `numpy.argmax`: index of the first occurrence of the maximum (a later
element replaces the running best only when strictly greater). -/
noncomputable def argmaxIdx : List ℝ → ℕ
  | [] => 0
  | [_] => 0
  | a :: b :: t =>
    let r := argmaxIdx (b :: t)
    if a < (b :: t).getD r 0 then r + 1 else 0

/-- `find_osc_period(data, sampling_rate)`: detrend, take the rfft
magnitude spectrum, select the first maximal bin, and return that bin's
`rfftfreq` value.  `1 / sampling_rate` raises `ZeroDivisionError` at a zero
rate; `rfft` raises `ValueError` on an empty array (in the code the
division happens first). -/
noncomputable def find_osc_period (data : List ℚ) (sampling_rate : ℚ) :
    Except PyError ℚ :=
  if sampling_rate = 0 then .error .zeroDivisionError
  else if data = [] then .error .valueError
  else .ok (rfftfreq data.length (1 / sampling_rate) (argmaxIdx (rfftMags (detrend data))))

/-! ### Session processing -/

/-- `SAMPLING_RATE = 10`, the fixed serial output rate in Hz. -/
def SAMPLING_RATE : ℚ := 10

/-- The per-line sample parse `dp = int(entry.split(',')[0])`. -/
def parseSample (entry : List Char) : Except PyError ℤ :=
  match pyInt (takeBeforeComma entry) with
  | some v => .ok v
  | none => .error .valueError

/-- The sample-extraction loop of `process_sessions`:
`filter(None, map(str.strip, session.split('\n')))` followed by the
integer parse of each entry's part before the first comma. -/
def extractData (body : List Char) : Except PyError (List ℤ) :=
  (((splitLines body).map strip).filter (fun l => !l.isEmpty)).mapM parseSample

/-- The per-block body of the `process_sessions` loop: gain conversion,
sample extraction, estimator call. -/
noncomputable def processBlock (blk : List Char × List Char) : Except PyError (ℚ × ℚ) := do
  let g ← gainParse blk.2
  let d ← extractData blk.1
  let p ← find_osc_period (d.map (fun z : ℤ => (z : ℚ))) SAMPLING_RATE
  pure (g, p)

/-- `process_sessions(text, n_last)`: discover the blocks, assert that at
least `n_last` were found, and process the trailing `n_last` blocks with
`for sid in reversed(range(len(sessions) - n_last, len(sessions)))`,
recording each result under key `sid + 1`.  The Python dict is modelled as
the association list in insertion order (its keys are distinct). -/
noncomputable def process_sessions (text : List Char) (n_last : ℕ) :
    Except PyError (List (ℕ × ℚ × ℚ)) :=
  let sessions := findBlocks text
  if sessions.length < n_last then .error .assertionError
  else
    ((List.range' (sessions.length - n_last) n_last).reverse).mapM fun sid =>
      (processBlock (sessions.getD sid ([], []))).map fun gp => (sid + 1, gp.1, gp.2)

/-- A discovered block is well formed when its gain converts, every sample
line parses, and at least one sample is present (so the estimator
succeeds). -/
def wellFormedB (blk : List Char × List Char) : Bool :=
  match gainParse blk.2, extractData blk.1 with
  | .ok _, .ok d => !d.isEmpty
  | _, _ => false

/-! ### Block discovery tiles the text -/

theorem reconstructs_cons (c : Char) (cs : List Char)
    (bs : List (List Char × List Char)) (h : reconstructs cs bs) :
    reconstructs (c :: cs) bs := by
  cases bs with
  | nil => trivial
  | cons hd tl =>
    obtain ⟨b, g⟩ := hd
    obtain ⟨pre, mid, tail, heq, hb, hmid, hg, hrec⟩ := h
    exact ⟨c :: pre, mid, tail, by rw [heq]; rfl, hb, hmid, hg, hrec⟩

theorem findBlocksAux_reconstructs :
    ∀ (fuel : ℕ) (l : List Char) (a : Bool), reconstructs l (findBlocksAux fuel l a) := by
  intro fuel
  induction fuel with
  | zero => intro l a; trivial
  | succ f ih =>
    intro l a
    cases l with
    | nil => trivial
    | cons c cs =>
      simp only [findBlocksAux]
      split
      · next hcond =>
        obtain ⟨-, hstart⟩ := hcond
        split
        · next b g r hA =>
          obtain ⟨mid, hb, hmid, hg, hdec⟩ := stageA_spec hA
          refine ⟨[], mid, r, ?_, hb, hmid, hg, ih r false⟩
          have h5 : (c :: cs) = startTok ++ (c :: cs).drop 5 := by
            conv_lhs => rw [← List.take_append_drop 5 (c :: cs)]
            rw [hstart]
          rw [h5, hdec]
          simp [List.append_assoc]
        · exact reconstructs_cons _ _ _ (ih cs _)
      · exact reconstructs_cons _ _ _ (ih cs _)

/-- The blocks discovered in a text tile it: each is a contiguous
`start .. end .. \x5b gain \x5d` segment, in textual order, with no
overlap and no nesting. -/
theorem findBlocks_reconstructs (text : List Char) : reconstructs text (findBlocks text) :=
  findBlocksAux_reconstructs text.length text true

/-! ### Spec-side estimator definitions

These three definitions follow the wording of the specification (§4.2) for
the refinement claim about `find_osc_period`: detrend by subtracting the
arithmetic mean, the magnitude spectrum of the real-input DFT over the
non-negative-frequency half, and frequency bins derived from the series
length and the sampling interval `1 / sampling_rate`. -/

/-- Spec step 1: subtract the arithmetic mean of the samples from every
sample. -/
def specDetrend (l : List ℚ) : List ℚ :=
  l.map (fun x => x - l.sum / l.length)

/-- Spec step 2: the transform magnitude of frequency bin `k` of the
real-input DFT of `l`. -/
noncomputable def specMagnitude (l : List ℚ) (k : ℕ) : ℝ :=
  Complex.abs (dftCoeff l k)

/-- Spec step 2: frequency (Hz) of bin `k` for `n` samples at sampling
interval `1 / rate`. -/
def specFreqBin (n : ℕ) (rate : ℚ) (k : ℕ) : ℚ :=
  (k : ℚ) / ((n : ℚ) * (1 / rate))

/-! ### Properties of `argmaxIdx` -/

theorem argmaxIdx_lt_length (l : List ℝ) (h : l ≠ []) : argmaxIdx l < l.length := by
  induction l with
  | nil => simp at h
  | cons a t ih =>
    cases t with
    | nil => simp [argmaxIdx]
    | cons b t' =>
      simp only [argmaxIdx]
      split
      · have := ih (by simp)
        simp only [List.length_cons] at *
        omega
      · simp

theorem argmaxIdx_getD_le (l : List ℝ) : ∀ j < l.length, l.getD j 0 ≤ l.getD (argmaxIdx l) 0 := by
  induction l with
  | nil => intro j hj; simp at hj
  | cons a t ih =>
    cases t with
    | nil =>
      intro j hj
      simp only [List.length_cons, List.length_nil] at hj
      interval_cases j <;> simp [argmaxIdx]
    | cons b t' =>
      simp only [argmaxIdx]
      by_cases hlt : a < (b :: t').getD (argmaxIdx (b :: t')) 0
      · simp only [if_pos hlt]
        intro j hj
        cases j with
        | zero => simpa using le_of_lt hlt
        | succ j' =>
          simp only [List.getD_cons_succ]
          exact ih j' (by simpa using hj)
      · simp only [if_neg hlt]
        push_neg at hlt
        intro j hj
        cases j with
        | zero => simp
        | succ j' =>
          simp only [List.getD_cons_succ, List.getD_cons_zero]
          exact le_trans (ih j' (by simpa using hj)) hlt

theorem argmaxIdx_getD_first (l : List ℝ) :
    ∀ j < argmaxIdx l, l.getD j 0 < l.getD (argmaxIdx l) 0 := by
  induction l with
  | nil => intro j hj; simp [argmaxIdx] at hj
  | cons a t ih =>
    cases t with
    | nil => intro j hj; simp [argmaxIdx] at hj
    | cons b t' =>
      simp only [argmaxIdx]
      by_cases hlt : a < (b :: t').getD (argmaxIdx (b :: t')) 0
      · simp only [if_pos hlt]
        intro j hj
        cases j with
        | zero => simpa using hlt
        | succ j' =>
          simp only [List.getD_cons_succ]
          exact ih j' (by omega)
      · simp only [if_neg hlt]
        intro j hj
        omega

/-! ### Basic estimator facts -/

theorem sum_map_add_const (l : List ℚ) (c : ℚ) :
    (l.map (fun x => x + c)).sum = l.sum + l.length * c := by
  induction l with
  | nil => simp
  | cons a t ih => simp [ih]; ring

/-- Mean subtraction cancels a constant additive offset. -/
theorem detrend_map_add (l : List ℚ) (c : ℚ) :
    detrend (l.map (fun x => x + c)) = detrend l := by
  rcases eq_or_ne l [] with rfl | hl
  · simp [detrend]
  · have hlen : (l.length : ℚ) ≠ 0 :=
      Nat.cast_ne_zero.mpr (Nat.pos_iff_ne_zero.mp (List.length_pos.mpr hl))
    have hmean : mean (l.map (fun x => x + c)) = mean l + c := by
      simp only [mean, List.length_map, sum_map_add_const]
      field_simp
      ring
    simp only [detrend, hmean, List.map_map]
    apply List.map_congr_left
    intro x _
    simp only [Function.comp_apply]
    ring

/-- On a single-sample series the estimator returns bin 0, frequency 0. -/
theorem find_osc_period_single (x r : ℚ) (hr : r ≠ 0) :
    find_osc_period [x] r = .ok 0 := by
  simp only [find_osc_period]
  rw [if_neg hr, if_neg (show ¬([x] : List ℚ) = [] by simp)]
  have h1 : rfftMags (detrend [x]) = [Complex.abs (dftCoeff (detrend [x]) 0)] := by
    simp [rfftMags, detrend, numBins, show List.range 1 = [0] from rfl]
  rw [h1]
  simp [argmaxIdx, rfftfreq]

/-- The estimator is invariant under a constant additive offset. -/
theorem find_osc_period_map_add (data : List ℚ) (r c : ℚ) :
    find_osc_period (data.map (fun x => x + c)) r = find_osc_period data r := by
  simp only [find_osc_period, detrend_map_add, List.map_eq_nil_iff, List.length_map]

/-- The code's detrend equals the spec's mean subtraction. -/
theorem detrend_eq_specDetrend (l : List ℚ) : detrend l = specDetrend l := by
  simp [detrend, specDetrend, mean]

theorem rfftMags_length (l : List ℚ) : (rfftMags l).length = numBins l.length := by
  simp [rfftMags]

theorem rfftMags_getD (l : List ℚ) (j : ℕ) (hj : j < numBins l.length) :
    (rfftMags l).getD j 0 = Complex.abs (dftCoeff l j) := by
  rw [List.getD_eq_getElem _ _ (by simpa [rfftMags_length] using hj)]
  simp [rfftMags]

/-! ### The shape of successful `process_sessions` runs -/

/-- The estimator succeeds exactly on a nonempty series and nonzero rate. -/
theorem find_osc_period_ok (data : List ℚ) (r : ℚ) (hd : data ≠ []) (hr : r ≠ 0) :
    ∃ q, find_osc_period data r = .ok q := by
  simp only [find_osc_period]
  rw [if_neg hr, if_neg hd]
  exact ⟨_, rfl⟩

theorem exceptBind_ok {α β : Type} (a : α) (f : α → Except PyError β) :
    (Except.ok a : Except PyError α) >>= f = f a := rfl

theorem exceptBind_error {α β : Type} (e : PyError) (f : α → Except PyError β) :
    (Except.error e : Except PyError α) >>= f = .error e := rfl

theorem exceptMap_ok {α β : Type} (a : α) (f : α → β) :
    (Except.ok a : Except PyError α).map f = .ok (f a) := rfl

theorem exceptMap_error {α β : Type} (e : PyError) (f : α → β) :
    (Except.error e : Except PyError α).map f = .error e := rfl

/-- A well-formed block is processed without an exception. -/
theorem processBlock_ok (blk : List Char × List Char) (h : wellFormedB blk = true) :
    ∃ v, processBlock blk = .ok v := by
  unfold wellFormedB at h
  split at h
  · next g d hg hd =>
    have hne : d ≠ [] := by simpa using h
    obtain ⟨q, hq⟩ :
        ∃ q, find_osc_period (d.map (fun z : ℤ => (z : ℚ))) SAMPLING_RATE = .ok q := by
      apply find_osc_period_ok
      · intro hmap
        exact hne (List.map_eq_nil_iff.mp hmap)
      · norm_num [SAMPLING_RATE]
    refine ⟨(g, q), ?_⟩
    simp only [processBlock, hg, hd, exceptBind_ok]
    rw [hq]
    rfl
  · cases h

/-- `mapM` of the session loop body over a list of ids on which every block
processes successfully: the run succeeds and the produced keys are the ids
shifted by one. -/
theorem mapM_loop_ok (l : List ℕ) (f : ℕ → Except PyError (ℚ × ℚ))
    (h : ∀ a ∈ l, ∃ v, f a = .ok v) :
    ∃ out, (l.mapM fun sid => (f sid).map fun gp => (sid + 1, gp.1, gp.2)) = .ok out ∧
      out.map (fun e => e.1) = l.map (fun sid => sid + 1) ∧ out.length = l.length := by
  induction l with
  | nil => exact ⟨[], rfl, rfl, rfl⟩
  | cons a t ih =>
    obtain ⟨v, hv⟩ := h a (by simp)
    obtain ⟨out, hout, hkeys, hlen⟩ := ih (fun x hx => h x (by simp [hx]))
    refine ⟨(a + 1, v.1, v.2) :: out, ?_, by simp [hkeys], by simp [hlen]⟩
    rw [List.mapM_cons, hv, hout]
    rfl

/-- Keys produced by the loop id list: shifting `range' (k - n) n` reversed
by one gives `range' (k - n + 1) n` reversed. -/
theorem keys_shift (k n : ℕ) :
    ((List.range' (k - n) n).reverse).map (fun sid => sid + 1) =
      (List.range' (k - n + 1) n).reverse := by
  rw [List.map_reverse]
  congr 1
  have h1 : (List.range' (k - n) n).map (fun sid => sid + 1) =
      (List.range' (k - n) n).map (fun sid => 1 + sid) := by
    apply List.map_congr_left
    intro x _
    omega
  rw [h1, List.map_add_range']
  congr 1
  omega

/-- Successful run of `process_sessions` when every discovered block is well
formed and enough blocks exist: exactly `n` entries, keyed by the last `n`
of the ids `1 .. k` (in the loop's descending order). -/
theorem process_sessions_keys (text : List Char) (n : ℕ)
    (hn : n ≤ (findBlocks text).length)
    (hwf : ∀ blk ∈ findBlocks text, wellFormedB blk = true) :
    ∃ entries, process_sessions text n = .ok entries ∧
      entries.map (fun e => e.1) =
        (List.range' ((findBlocks text).length - n + 1) n).reverse ∧
      entries.length = n := by
  have hlt : ¬((findBlocks text).length < n) := by omega
  obtain ⟨out, hout, hkeys, hlen⟩ :=
    mapM_loop_ok ((List.range' ((findBlocks text).length - n) n).reverse)
      (fun sid => processBlock ((findBlocks text).getD sid ([], [])))
      (by
        intro a ha
        apply processBlock_ok
        apply hwf
        have halt : a < (findBlocks text).length := by
          rw [List.mem_reverse, List.mem_range'] at ha
          obtain ⟨i, hi, rfl⟩ := ha
          omega
        rw [List.getD_eq_getElem _ _ halt]
        exact List.getElem_mem _)
  refine ⟨out, ?_, ?_, by simp [hlen]⟩
  · simp only [process_sessions]
    rw [if_neg hlt]
    exact hout
  · rw [hkeys, keys_shift]

/-! ### Sample extraction matches the specification wording

The source strips each line first and then filters out empty strings
(`filter(None, map(str.strip, ...))`), while the specification says to
discard blank/whitespace-only lines and parse each remaining raw line.
The two agree because `int()` itself strips whitespace and a comma is not
whitespace. -/

/-- Spec-side sample extraction (§4.1): split the block body into lines,
discard blank/whitespace-only lines, and for each remaining line take the
substring before the first comma and parse it as an integer sample value,
in line order. -/
def specExtract (body : List Char) : Except PyError (List ℤ) :=
  ((splitLines body).filter (fun l => !(l.all pyWs))).mapM parseSample

theorem rdropWhile_append_rtakeWhile (p : Char → Bool) (l : List Char) :
    l.rdropWhile p ++ l.rtakeWhile p = l := by
  rw [List.rdropWhile, List.rtakeWhile, ← List.reverse_append,
    List.takeWhile_append_dropWhile, List.reverse_reverse]

theorem takeBeforeComma_dropWhile (l : List Char) :
    takeBeforeComma (l.dropWhile pyWs) = (takeBeforeComma l).dropWhile pyWs := by
  induction l with
  | nil => rfl
  | cons c t ih =>
    by_cases hws : pyWs c = true
    · have hc : (c != ',') = true := by
        rcases eq_or_ne c ',' with rfl | hne
        · cases hws
        · simpa using hne
      simp only [takeBeforeComma] at ih ⊢
      rw [List.dropWhile_cons, if_pos hws, List.takeWhile_cons, if_pos hc,
        List.dropWhile_cons, if_pos hws, ih]
    · have hws2 : pyWs c = false := by simpa using hws
      rw [List.dropWhile_cons, if_neg (by simp [hws2])]
      by_cases hc : (c != ',') = true
      · simp only [takeBeforeComma]
        rw [List.takeWhile_cons, if_pos hc, List.dropWhile_cons, if_neg (by simp [hws2])]
      · simp only [takeBeforeComma]
        rw [List.takeWhile_cons, if_neg hc]
        rfl

theorem takeBeforeComma_append_of_mem (p s : List Char) (h : ',' ∈ p) :
    takeBeforeComma (p ++ s) = takeBeforeComma p := by
  induction p with
  | nil => cases h
  | cons c t ih =>
    by_cases hc : (c != ',') = true
    · have hmem : ',' ∈ t := by
        rcases List.mem_cons.mp h with heq | hmem
        · exact absurd heq.symm (by simpa using hc)
        · exact hmem
      simp only [takeBeforeComma] at ih ⊢
      rw [List.cons_append, List.takeWhile_cons, if_pos hc, List.takeWhile_cons, if_pos hc,
        ih hmem]
    · simp only [takeBeforeComma]
      rw [List.cons_append, List.takeWhile_cons, if_neg hc, List.takeWhile_cons, if_neg hc]

theorem takeBeforeComma_eq_self (l : List Char) (h : ¬(',' ∈ l)) :
    takeBeforeComma l = l := by
  induction l with
  | nil => rfl
  | cons c t ih =>
    have hc : (c != ',') = true := by
      simp only [bne_iff_ne, ne_eq]
      intro rfl2
      exact h (by simp [rfl2])
    simp only [takeBeforeComma] at ih ⊢
    rw [List.takeWhile_cons, if_pos hc, ih (fun hm => h (by simp [hm]))]

theorem mem_of_mem_strip {x : Char} {l : List Char} (h : x ∈ strip l) : x ∈ l := by
  obtain ⟨s, hs⟩ := List.rdropWhile_prefix pyWs (l.dropWhile pyWs)
  have h1 : x ∈ l.dropWhile pyWs := by
    rw [← hs]
    exact List.mem_append_left _ h
  obtain ⟨t, ht⟩ := List.dropWhile_suffix (l := l) pyWs
  rw [← ht]
  exact List.mem_append_right _ h1

theorem strip_idem (l : List Char) : strip (strip l) = strip l := by
  unfold strip
  have h1 : ((l.dropWhile pyWs).rdropWhile pyWs).dropWhile pyWs =
      (l.dropWhile pyWs).rdropWhile pyWs := by
    cases hm : (l.dropWhile pyWs).rdropWhile pyWs with
    | nil => rfl
    | cons c t =>
      obtain ⟨s, hs⟩ := List.rdropWhile_prefix pyWs (l.dropWhile pyWs)
      rw [hm] at hs
      have hc : pyWs c = false := by
        by_cases hP : pyWs c = true
        · exfalso
          have hdw : (l.dropWhile pyWs).dropWhile pyWs = l.dropWhile pyWs :=
            List.dropWhile_idempotent pyWs l
          rw [← hs] at hdw
          rw [List.cons_append, List.dropWhile_cons, if_pos hP] at hdw
          have hlen := congrArg List.length hdw
          have hle : ((t ++ s).dropWhile pyWs).length ≤ (t ++ s).length :=
            (List.dropWhile_suffix pyWs).sublist.length_le
          simp only [List.length_cons] at hlen
          omega
        · simpa using hP
      rw [List.dropWhile_cons, if_neg (by simp [hc])]
  rw [h1, List.rdropWhile_idempotent]

theorem all_pyWs_dropWhile_iff (l : List Char) :
    (∀ x ∈ l.dropWhile pyWs, pyWs x = true) ↔ (∀ x ∈ l, pyWs x = true) := by
  constructor
  · intro h x hx
    have hsplit : l.takeWhile pyWs ++ l.dropWhile pyWs = l :=
      List.takeWhile_append_dropWhile pyWs l
    rw [← hsplit] at hx
    rcases List.mem_append.mp hx with h1 | h1
    · exact List.mem_takeWhile_imp h1
    · exact h x h1
  · intro h x hx
    obtain ⟨t, ht⟩ := List.dropWhile_suffix (l := l) pyWs
    exact h x (by rw [← ht]; exact List.mem_append_right _ hx)

theorem strip_eq_nil_iff (l : List Char) : strip l = [] ↔ l.all pyWs = true := by
  unfold strip
  rw [List.rdropWhile_eq_nil_iff, List.all_eq_true]
  exact all_pyWs_dropWhile_iff l

theorem strip_takeBeforeComma_strip (l : List Char) :
    strip (takeBeforeComma (strip l)) = strip (takeBeforeComma l) := by
  by_cases hc : ',' ∈ l
  · have hc1 : ',' ∈ l.dropWhile pyWs := by
      have hsplit : l.takeWhile pyWs ++ l.dropWhile pyWs = l :=
        List.takeWhile_append_dropWhile pyWs l
      rw [← hsplit] at hc
      rcases List.mem_append.mp hc with h1 | h1
      · exact absurd (List.mem_takeWhile_imp h1) (by decide)
      · exact h1
    have hc2 : ',' ∈ strip l := by
      have hdecomp := rdropWhile_append_rtakeWhile pyWs (l.dropWhile pyWs)
      rw [← hdecomp] at hc1
      rcases List.mem_append.mp hc1 with h1 | h1
      · exact h1
      · exact absurd (List.mem_rtakeWhile_imp h1) (by decide)
    have h2 : takeBeforeComma (strip l) = takeBeforeComma (l.dropWhile pyWs) := by
      have hdecomp : strip l ++ (l.dropWhile pyWs).rtakeWhile pyWs = l.dropWhile pyWs :=
        rdropWhile_append_rtakeWhile pyWs (l.dropWhile pyWs)
      conv_rhs => rw [← hdecomp]
      rw [takeBeforeComma_append_of_mem _ _ hc2]
    rw [h2, takeBeforeComma_dropWhile]
    unfold strip
    rw [List.dropWhile_idempotent]
  · have h3 : takeBeforeComma l = l := takeBeforeComma_eq_self l hc
    have h4 : takeBeforeComma (strip l) = strip l :=
      takeBeforeComma_eq_self _ (fun hx => hc (mem_of_mem_strip hx))
    rw [h3, h4, strip_idem]

theorem parseSample_strip (x : List Char) : parseSample (strip x) = parseSample x := by
  have h := strip_takeBeforeComma_strip x
  simp only [parseSample, pyInt, h]

theorem mapM_parseSample_map_strip (L : List (List Char)) :
    (L.map strip).mapM parseSample = L.mapM parseSample := by
  induction L with
  | nil => rfl
  | cons x t ih =>
    rw [List.map_cons, List.mapM_cons, List.mapM_cons, parseSample_strip, ih]

/-! ### Numeric literal parsing facts -/

theorem pyWs_eq_false_of_isDigit {c : Char} (h : c.isDigit = true) : pyWs c = false := by
  by_contra hws
  rw [Bool.not_eq_false] at hws
  simp only [pyWs, Bool.or_eq_true, beq_iff_eq] at hws
  rcases hws with ((((h1 | h1) | h1) | h1) | h1) | h1 <;> subst h1 <;>
    exact absurd h (by decide)

theorem strip_of_forall_not_ws (l : List Char) (h : ∀ c ∈ l, pyWs c = false) :
    strip l = l := by
  have h1 : l.dropWhile pyWs = l := by
    cases l with
    | nil => rfl
    | cons c t => rw [List.dropWhile_cons, if_neg (by simp [h c (by simp)])]
  unfold strip
  rw [h1]
  exact List.rdropWhile_eq_self_iff.mpr (fun hl => by simp [h _ (List.getLast_mem hl)])

theorem takeWhile_append_of_all (p : Char → Bool) (a b : List Char)
    (h : ∀ c ∈ a, p c = true) : (a ++ b).takeWhile p = a ++ b.takeWhile p := by
  induction a with
  | nil => rfl
  | cons c t ih =>
    rw [List.cons_append, List.takeWhile_cons, if_pos (h c (by simp)),
      ih (fun x hx => h x (by simp [hx])), List.cons_append]

theorem dropWhile_append_of_all (p : Char → Bool) (a b : List Char)
    (h : ∀ c ∈ a, p c = true) : (a ++ b).dropWhile p = b.dropWhile p := by
  induction a with
  | nil => rfl
  | cons c t ih =>
    rw [List.cons_append, List.dropWhile_cons, if_pos (h c (by simp)),
      ih (fun x hx => h x (by simp [hx]))]

theorem parseUnsignedFloat_digits (ds : List Char) (hne : ds ≠ [])
    (hall : ds.all Char.isDigit = true) :
    parseUnsignedFloat ds = some ((digitsVal ds : ℚ)) := by
  have ht : ds.takeWhile Char.isDigit = ds := by
    have := takeWhile_append_of_all Char.isDigit ds [] (List.all_eq_true.mp hall)
    simpa using this
  have hd : ds.dropWhile Char.isDigit = [] := by
    have h2 := congrArg List.length (List.takeWhile_append_dropWhile Char.isDigit ds)
    rw [List.length_append, ht] at h2
    have h3 : (ds.dropWhile Char.isDigit).length = 0 := by omega
    exact List.length_eq_zero.mp h3
  unfold parseUnsignedFloat
  rw [ht, hd]
  simp only [hne, if_neg]
  rfl

theorem parseUnsignedFloat_decimal (a b : List Char) (ha : a.all Char.isDigit = true)
    (hbne : b ≠ []) (hb : b.all Char.isDigit = true) :
    parseUnsignedFloat (a ++ '.' :: b) =
      some ((digitsVal a : ℚ) + (digitsVal b : ℚ) / 10 ^ b.length) := by
  have hta : (a ++ '.' :: b).takeWhile Char.isDigit = a := by
    rw [takeWhile_append_of_all Char.isDigit a _ (List.all_eq_true.mp ha),
      List.takeWhile_cons, if_neg (by decide)]
    simp
  have hda : (a ++ '.' :: b).dropWhile Char.isDigit = '.' :: b := by
    rw [dropWhile_append_of_all Char.isDigit a _ (List.all_eq_true.mp ha),
      List.dropWhile_cons, if_neg (by decide)]
  have htb : b.takeWhile Char.isDigit = b := by
    have := takeWhile_append_of_all Char.isDigit b [] (List.all_eq_true.mp hb)
    simpa using this
  have hdb : b.dropWhile Char.isDigit = [] := by
    have h2 := congrArg List.length (List.takeWhile_append_dropWhile Char.isDigit b)
    rw [List.length_append, htb] at h2
    have h3 : (b.dropWhile Char.isDigit).length = 0 := by omega
    exact List.length_eq_zero.mp h3
  unfold parseUnsignedFloat
  rw [hta, hda]
  simp only [htb, hdb]
  rw [if_neg (by simp [hbne])]
  rfl

theorem pyFloat_digits (ds : List Char) (hne : ds ≠ [])
    (hall : ds.all Char.isDigit = true) :
    pyFloat ds = some ((digitsVal ds : ℚ)) := by
  have hws : ∀ c ∈ ds, pyWs c = false := fun c hc =>
    pyWs_eq_false_of_isDigit (List.all_eq_true.mp hall c hc)
  have hstrip := strip_of_forall_not_ws ds hws
  unfold pyFloat
  rw [hstrip]
  split
  · exfalso
    exact absurd (List.all_eq_true.mp hall '+' (by simp)) (by decide)
  · exfalso
    exact absurd (List.all_eq_true.mp hall '-' (by simp)) (by decide)
  · exact parseUnsignedFloat_digits ds hne hall

theorem pyFloat_decimal (a b : List Char) (ha : a.all Char.isDigit = true)
    (hbne : b ≠ []) (hb : b.all Char.isDigit = true) :
    pyFloat (a ++ '.' :: b) =
      some ((digitsVal a : ℚ) + (digitsVal b : ℚ) / 10 ^ b.length) := by
  have hws : ∀ c ∈ a ++ '.' :: b, pyWs c = false := by
    intro c hc
    rcases List.mem_append.mp hc with h1 | h1
    · exact pyWs_eq_false_of_isDigit (List.all_eq_true.mp ha c h1)
    · rcases List.mem_cons.mp h1 with rfl | h2
      · decide
      · exact pyWs_eq_false_of_isDigit (List.all_eq_true.mp hb c h2)
  have hstrip := strip_of_forall_not_ws _ hws
  unfold pyFloat
  rw [hstrip]
  split
  · next r heq =>
    exfalso
    cases a with
    | nil => simp at heq
    | cons c t =>
      rw [List.cons_append] at heq
      have hc : c = '+' := (List.cons_eq_cons.mp heq).1
      rw [hc] at ha
      exact absurd (List.all_eq_true.mp ha '+' (by simp)) (by decide)
  · next r heq =>
    exfalso
    cases a with
    | nil => simp at heq
    | cons c t =>
      rw [List.cons_append] at heq
      have hc : c = '-' := (List.cons_eq_cons.mp heq).1
      rw [hc] at ha
      exact absurd (List.all_eq_true.mp ha '-' (by simp)) (by decide)
  · exact parseUnsignedFloat_decimal a b ha hbne hb

theorem gainParse_digits (ds : List Char) (hne : ds ≠ [])
    (hall : ds.all Char.isDigit = true) :
    gainParse ds = .ok ((digitsVal ds : ℚ) / 1000) := by
  unfold gainParse
  rw [pyFloat_digits ds hne hall]

theorem gainParse_decimal (a b : List Char) (ha : a.all Char.isDigit = true)
    (hbne : b ≠ []) (hb : b.all Char.isDigit = true) :
    gainParse (a ++ '.' :: b) =
      .ok (((digitsVal a : ℚ) + (digitsVal b : ℚ) / 10 ^ b.length) / 1000) := by
  unfold gainParse
  rw [pyFloat_decimal a b ha hbne hb]

/-! ### Concrete single-block runs -/

theorem process_sessions_single (text : List Char) (b g : List Char)
    (hfb : findBlocks text = [(b, g)])
    (gq : ℚ) (hg : gainParse g = .ok gq)
    (d : List ℤ) (hd : extractData b = .ok d)
    (p : ℚ) (hp : find_osc_period (d.map (fun z : ℤ => (z : ℚ))) SAMPLING_RATE = .ok p) :
    process_sessions text 1 = .ok [(1, gq, p)] := by
  have hpb : processBlock (b, g) = .ok (gq, p) := by
    simp only [processBlock, hg, hd, exceptBind_ok]
    rw [hp]
    rfl
  simp only [process_sessions, hfb]
  rw [if_neg (by simp)]
  rw [show ((List.range' ([(b, g)].length - 1) 1).reverse) = [0] from rfl]
  rw [List.mapM_cons, List.mapM_nil]
  simp only [List.getD_cons_zero, hpb, exceptMap_ok]
  rfl

theorem processBlock_end1500 :
    processBlock ("\n1,0\n".toList, "1500".toList) = .ok (3 / 2, 0) := by
  have hg : gainParse "1500".toList = .ok ((3 : ℚ) / 2) := by with_unfolding_all decide
  have hd : extractData "\n1,0\n".toList = .ok [(1 : ℤ)] := by decide
  have hp : find_osc_period ([(1 : ℤ)].map (fun z : ℤ => (z : ℚ))) SAMPLING_RATE = .ok 0 := by
    rw [show ([(1 : ℤ)].map (fun z : ℤ => (z : ℚ))) = [(1 : ℚ)] by norm_num]
    exact find_osc_period_single 1 SAMPLING_RATE (by decide)
  simp only [processBlock, hg, hd, exceptBind_ok]
  rw [hp]
  rfl

/-! ### Claim theorems -/

/-- C1: for every log text in which block discovery finds `k` well-formed
blocks and every `n ≤ k`, `process_sessions` returns a mapping with exactly
`n` entries whose keys are the final `n` integers of `1 .. k` (each key the
block's 1-based position among all `k` discovered blocks, not renumbered
within the trailing subset). -/
theorem claim_C1 (text : List Char) (n : ℕ)
    (hn : n ≤ (findBlocks text).length)
    (hwf : ∀ blk ∈ findBlocks text, wellFormedB blk = true) :
    ∃ entries, process_sessions text n = .ok entries ∧
      entries.length = n ∧
      entries.map (fun e => e.1) =
        (List.range' ((findBlocks text).length - n + 1) n).reverse := by
  obtain ⟨es, h1, h2, h3⟩ := process_sessions_keys text n hn hwf
  exact ⟨es, h1, h3, h2⟩

theorem claim_C1_witness :
    ∃ entries,
      process_sessions "start\n1,0\nend [2000]\nstart\n3,0\nend [3000]\n".toList 1 =
        .ok entries ∧
      entries.length = 1 ∧
      entries.map (fun e => e.1) =
        (List.range'
          ((findBlocks "start\n1,0\nend [2000]\nstart\n3,0\nend [3000]\n".toList).length
            - 1 + 1) 1).reverse :=
  claim_C1 _ 1 (by decide) (by decide)

/-- C3: whenever the requested count exceeds the number of discovered
blocks, `process_sessions` fails with the insufficient-sessions error (the
`assert` raises `AssertionError`); it does not truncate. -/
theorem claim_C3 (text : List Char) (n : ℕ) (h : (findBlocks text).length < n) :
    process_sessions text n = .error .assertionError := by
  simp only [process_sessions]
  rw [if_pos h]

theorem claim_C3_witness : process_sessions [] 1 = .error .assertionError :=
  claim_C3 [] 1 (by decide)

/-- C7 (amended): `find_osc_period` fails with `ZeroDivisionError` when the
sampling rate is zero and with `ValueError` when the series is empty (rate
nonzero); but a negative sampling rate with a nonempty series is not
rejected — a value is returned. -/
theorem claim_C7 (data : List ℚ) (r : ℚ) :
    (r = 0 → find_osc_period data r = .error .zeroDivisionError) ∧
    (r ≠ 0 → data = [] → find_osc_period data r = .error .valueError) ∧
    (r ≠ 0 → data ≠ [] → ∃ q, find_osc_period data r = .ok q) := by
  refine ⟨?_, ?_, ?_⟩
  · intro h
    simp only [find_osc_period]
    rw [if_pos h]
  · intro hr hd
    simp only [find_osc_period]
    rw [if_neg hr, if_pos hd]
  · intro hr hd
    exact find_osc_period_ok data r hd hr

theorem claim_C7_witness :
    find_osc_period ([] : List ℚ) 0 = .error .zeroDivisionError ∧
    find_osc_period ([] : List ℚ) 10 = .error .valueError ∧
    ∃ q, find_osc_period [1, 2] (-10) = .ok q :=
  ⟨(claim_C7 [] 0).1 rfl, (claim_C7 [] 10).2.1 (by decide) rfl,
   (claim_C7 [1, 2] (-10)).2.2 (by decide) (by decide)⟩

/-- C7 counterexample: the claim "find_osc_period fails whenever the
sampling rate is not positive (zero or negative)" is false at a negative
rate: a single-sample series at rate -10 returns a value (0), raising
nothing. -/
theorem claim_C7_counterexample : find_osc_period [7] (-10) = .ok 0 :=
  find_osc_period_single 7 (-10) (by decide)

/-- C8: the estimator result is invariant under adding a constant offset to
every sample — mean subtraction cancels the offset before the transform. -/
theorem claim_C8 (data : List ℚ) (r c : ℚ) (hd : data ≠ []) (hr : 0 < r) :
    find_osc_period (data.map (fun x => x + c)) r = find_osc_period data r :=
  find_osc_period_map_add data r c

theorem claim_C8_witness :
    find_osc_period ([1, 2].map (fun x => x + 5)) 10 = find_osc_period [1, 2] 10 :=
  claim_C8 [1, 2] 10 5 (by decide) (by decide)

/-- C10: on a single-element series with positive sampling rate the
estimator succeeds and returns 0: the half-spectrum has exactly one bin, at
frequency 0 Hz, and it is selected. -/
theorem claim_C10 (x r : ℚ) (hr : 0 < r) : find_osc_period [x] r = .ok 0 :=
  find_osc_period_single x r (ne_of_gt hr)

theorem claim_C10_witness : find_osc_period [5] 10 = .ok 0 :=
  claim_C10 5 10 (by decide)

/-- C2: on a nonempty series and positive rate, `find_osc_period` returns
(without inversion) the frequency `specFreqBin` of a bin `i` of the
half-spectrum whose magnitude — taken over the mean-subtracted series — is
maximal, every strictly earlier bin having strictly smaller magnitude
(first-occurrence tie-break). -/
theorem claim_C2 (data : List ℚ) (rate : ℚ) (hd : data ≠ []) (hr : 0 < rate) :
    ∃ i, i < numBins data.length ∧
      find_osc_period data rate = .ok (specFreqBin data.length rate i) ∧
      (∀ j < numBins data.length,
        specMagnitude (specDetrend data) j ≤ specMagnitude (specDetrend data) i) ∧
      (∀ j < i,
        specMagnitude (specDetrend data) j < specMagnitude (specDetrend data) i) := by
  have hr0 : rate ≠ 0 := ne_of_gt hr
  have hlenm : (rfftMags (detrend data)).length = numBins data.length := by
    rw [rfftMags_length, detrend, List.length_map]
  have hmne : rfftMags (detrend data) ≠ [] := by
    intro hnil
    rw [hnil] at hlenm
    simp [numBins] at hlenm
  set i := argmaxIdx (rfftMags (detrend data)) with hi
  have hilt : i < numBins data.length := by
    rw [← hlenm]
    exact argmaxIdx_lt_length _ hmne
  have hgetD : ∀ j, j < numBins data.length →
      (rfftMags (detrend data)).getD j 0 = specMagnitude (specDetrend data) j := by
    intro j hj
    rw [rfftMags_getD _ _ (by rwa [detrend, List.length_map]), specMagnitude,
      detrend_eq_specDetrend]
  refine ⟨i, hilt, ?_, ?_, ?_⟩
  · simp only [find_osc_period]
    rw [if_neg hr0, if_neg hd]
    rfl
  · intro j hj
    rw [← hgetD j hj, ← hgetD i hilt]
    exact argmaxIdx_getD_le _ j (by omega)
  · intro j hj
    rw [← hgetD j (by omega), ← hgetD i hilt]
    exact argmaxIdx_getD_first _ j hj

theorem claim_C2_witness :
    ∃ i, i < numBins ([1, 2] : List ℚ).length ∧
      find_osc_period [1, 2] 10 = .ok (specFreqBin ([1, 2] : List ℚ).length 10 i) ∧
      (∀ j < numBins ([1, 2] : List ℚ).length,
        specMagnitude (specDetrend [1, 2]) j ≤ specMagnitude (specDetrend [1, 2]) i) ∧
      (∀ j < i,
        specMagnitude (specDetrend [1, 2]) j < specMagnitude (specDetrend [1, 2]) i) :=
  claim_C2 [1, 2] 10 (by decide) (by decide)

/-- C6: the sample series handed to the estimator is exactly what the
specification describes: split the body into lines, discard
blank/whitespace-only lines, and for each remaining line in order parse the
part before the first comma as an integer; text after the comma is
dropped. -/
theorem claim_C6 (body : List Char) : extractData body = specExtract body := by
  unfold extractData specExtract
  rw [List.filter_map]
  have hpred : ((splitLines body).filter ((fun l => !l.isEmpty) ∘ strip)) =
      (splitLines body).filter (fun l => !(l.all pyWs)) := by
    apply List.filter_congr
    intro x _
    simp only [Function.comp_apply]
    congr 1
    cases h : x.all pyWs with
    | false =>
      have hne : strip x ≠ [] := fun hnil => by
        rw [(strip_eq_nil_iff x).mp hnil] at h
        cases h
      simpa [List.isEmpty_iff] using hne
    | true =>
      have hnil : strip x = [] := (strip_eq_nil_iff x).mpr h
      simp [hnil]
  rw [hpred]
  exact mapM_parseSample_map_strip _

/-- C5: a processed block whose gain field is a digit string records gain
`raw_integer / 1000`; in particular a lone block ending `end [1500]` yields
gain 1.5 (= 3/2). -/
theorem claim_C5 :
    (∀ blk : List Char × List Char, ∀ g p, processBlock blk = .ok (g, p) →
      blk.2 ≠ [] → blk.2.all Char.isDigit = true →
      g = (digitsVal blk.2 : ℚ) / 1000) ∧
    process_sessions "start\n1,0\nend [1500]\n".toList 1 = .ok [(1, 3 / 2, 0)] := by
  constructor
  · intro blk g p h hne hall
    have hgain := gainParse_digits blk.2 hne hall
    simp only [processBlock, hgain, exceptBind_ok] at h
    cases hd : extractData blk.1 with
    | error e => rw [hd, exceptBind_error] at h; cases h
    | ok d =>
      rw [hd, exceptBind_ok] at h
      cases hf : find_osc_period (d.map (fun z : ℤ => (z : ℚ))) SAMPLING_RATE with
      | error e => rw [hf, exceptBind_error] at h; cases h
      | ok q =>
        rw [hf, exceptBind_ok] at h
        simp only [pure, Except.pure] at h
        injection h with h3
        exact (congrArg Prod.fst h3).symm
  · have hfb : findBlocks "start\n1,0\nend [1500]\n".toList =
        [("\n1,0\n".toList, "1500".toList)] := by decide
    have hg : gainParse "1500".toList = .ok ((3 : ℚ) / 2) := by with_unfolding_all decide
    have hd : extractData "\n1,0\n".toList = .ok [(1 : ℤ)] := by decide
    have hp : find_osc_period ([(1 : ℤ)].map (fun z : ℤ => (z : ℚ))) SAMPLING_RATE
        = .ok 0 := by
      rw [show ([(1 : ℤ)].map (fun z : ℤ => (z : ℚ))) = [(1 : ℚ)] by norm_num]
      exact find_osc_period_single 1 SAMPLING_RATE (by decide)
    exact process_sessions_single _ _ _ hfb _ hg _ hd _ hp

theorem claim_C5_witness :
    (3 / 2 : ℚ) = (digitsVal "1500".toList : ℚ) / 1000 :=
  claim_C5.1 ("\n1,0\n".toList, "1500".toList) (3 / 2) 0 processBlock_end1500
    (by decide) (by decide)

/-- C9: a gain field that is a decimal numeral with a fractional part (for
example `1.5`) is parsed as a float, not an integer: no numeric-conversion
error occurs and the recorded gain is the parsed value divided by 1000
(`end [1.5]` gives 0.0015 = 3/2000). -/
theorem claim_C9 :
    (∀ a b : List Char, a.all Char.isDigit = true → b ≠ [] → b.all Char.isDigit = true →
      gainParse (a ++ '.' :: b) =
        .ok (((digitsVal a : ℚ) + (digitsVal b : ℚ) / 10 ^ b.length) / 1000)) ∧
    process_sessions "start\n1,0\nend [1.5]\n".toList 1 = .ok [(1, 3 / 2000, 0)] := by
  constructor
  · intro a b ha hbne hb
    exact gainParse_decimal a b ha hbne hb
  · have hfb : findBlocks "start\n1,0\nend [1.5]\n".toList =
        [("\n1,0\n".toList, "1.5".toList)] := by decide
    have hg : gainParse "1.5".toList = .ok ((3 : ℚ) / 2000) := by with_unfolding_all decide
    have hd : extractData "\n1,0\n".toList = .ok [(1 : ℤ)] := by decide
    have hp : find_osc_period ([(1 : ℤ)].map (fun z : ℤ => (z : ℚ))) SAMPLING_RATE
        = .ok 0 := by
      rw [show ([(1 : ℤ)].map (fun z : ℤ => (z : ℚ))) = [(1 : ℚ)] by norm_num]
      exact find_osc_period_single 1 SAMPLING_RATE (by decide)
    exact process_sessions_single _ _ _ hfb _ hg _ hd _ hp

theorem claim_C9_witness :
    gainParse ("1".toList ++ '.' :: "5".toList) =
      .ok (((digitsVal "1".toList : ℚ) + (digitsVal "5".toList : ℚ)
        / 10 ^ ("5".toList).length) / 1000) :=
  claim_C9.1 "1".toList "5".toList (by decide) (by decide) (by decide)

/-- C4 counterexample: on the text
`start\n1,0\nstart\n2,0\nend [abc]\n` — whose first block is missing
its end terminator and whose second block has the non-numeric gain field
`abc` — block discovery does not exclude the malformed blocks: it returns
one match, whose body has absorbed the second `start` line and whose gain
capture is the non-numeric `abc`.  The claim predicts both malformed blocks
are unmatched (count 0) and that no merging occurs. -/
theorem claim_C4_counterexample :
    findBlocks "start\n1,0\nstart\n2,0\nend [abc]\n".toList =
      [("\n1,0\nstart\n2,0\n".toList, "abc".toList)] := by decide

/-- C4 (amended): a block missing its `end [...]` terminator does not
produce a match of its own, but it is not silently excluded either — its
text is absorbed into a single merged match extending through the next
terminated block, changing the block count and the numbering; a block whose
bracketed gain field is non-numeric IS matched and counted by block
discovery (the regex gain group accepts any nonempty text, and the failure
only surfaces later as a numeric conversion error); blocks are discovered
in textual order, top to bottom, non-overlapping and non-nested (they tile
the text left to right). -/
theorem claim_C4 :
    (findBlocks "start\n1,0\nstart\n2,0\nend [abc]\n".toList =
      [("\n1,0\nstart\n2,0\n".toList, "abc".toList)]) ∧
    (∀ text : List Char, reconstructs text (findBlocks text)) :=
  ⟨by decide, fun text => findBlocks_reconstructs text⟩

end Tuning
